import Mathlib

/-!
Verification development for the robot movement simulator
(`robot_sim.py`, `movement_table.py`).

The Python code works with `float` probabilities; here probabilities are
embedded as exact rationals (`ℚ`), so quantities the code computes up to
floating-point rounding are computed exactly, and "sums to 1 within
tolerance" statements are settled by exact sums.  Python dicts of
movement probabilities are embedded as a list of keys together with a
valuation function; the shared random source is embedded as a stream
`u : ℕ → ℚ` of uniform draws consumed at an explicit cursor index.
-/

/-- Labels of squares: position 0 is a window, squares alternate. -/
inductive Label where
  | window
  | wall
deriving DecidableEq

/-- A movement-probability dict: its (distinct) integer distance keys, in
insertion order, and the probability associated to each key. -/
structure MoveDist where
  keys : List ℕ
  val : ℕ → ℚ

/-- `dict.items()`: the (distance, probability) pairs of a `MoveDist`. -/
def MoveDist.items (d : MoveDist) : List (ℕ × ℚ) :=
  d.keys.map fun k => (k, d.val k)

/-- The running-sum loop of `_build_cdf`: `s += probs_dict[m]; cum.append(s)`. -/
def cum_acc (val : ℕ → ℚ) : List ℕ → ℚ → List ℚ
  | [], _ => []
  | m :: ms, s => (s + val m) :: cum_acc val ms (s + val m)

/-- `RobotSimulator._build_cdf`: sort the distances ascending and pair them
with the accumulated probabilities. -/
def build_cdf (d : MoveDist) : List ℕ × List ℚ :=
  (d.keys.insertionSort (· ≤ ·), cum_acc d.val (d.keys.insertionSort (· ≤ ·)) 0)

/-- The `for m, c in zip(moves, cum): if u <= c: return m` loop of
`_sample_move`; `none` means the loop fell through. -/
def sample_loop : List ℕ → List ℚ → ℚ → Option ℕ
  | m :: ms, c :: cs, u => if u ≤ c then some m else sample_loop ms cs u
  | _, _, _ => none

/-- `RobotSimulator._sample_move` applied to the uniform draw `u`:
the zip loop, with `moves[-1]` as the fallback (`none` embeds the
`IndexError` raised on an empty dict). -/
def sample_move (d : MoveDist) (u : ℚ) : Option ℕ :=
  match sample_loop (build_cdf d).1 (build_cdf d).2 u with
  | some m => some m
  | none => (build_cdf d).1.getLast?

/-- `RobotSimulator.true_label_at`: even positions are windows, odd are walls. -/
def true_label_at (pos : ℕ) : Label :=
  if pos % 2 = 0 then .window else .wall

/-- `RobotSimulator.perceive_label`: one fresh uniform draw `u` is compared
with the correctness probability of the true label. -/
def perceive_label (pw pwin : ℚ) (t : Label) (u : ℚ) : Label :=
  match t with
  | .wall => if u ≤ pw then .wall else .window
  | .window => if u ≤ pwin then .window else .wall

/-- `RobotSimulator.run_single`: starting from position `pos` with the draw
cursor at `idx`, run `n` steps; each step samples a move with draw `u idx`,
clamps the target at `max_pos`, perceives the label at the target with draw
`u (idx+1)`, and records `(target, true, perceived)`.  Returns the final
position, the trace, and the final cursor. -/
def run_single (maxPos : ℕ) (d : MoveDist) (pw pwin : ℚ) (u : ℕ → ℚ) :
    ℕ → ℕ → ℕ → Option (ℕ × List (ℕ × Label × Label) × ℕ)
  | 0, pos, idx => some (pos, [], idx)
  | n + 1, pos, idx =>
    match sample_move d (u idx) with
    | none => none
    | some m =>
      let target := min (pos + m) maxPos
      let t := true_label_at target
      let perceived := perceive_label pw pwin t (u (idx + 1))
      match run_single maxPos d pw pwin u n target (idx + 2) with
      | none => none
      | some (fin, tr, idx') => some (fin, (target, t, perceived) :: tr, idx')

/-- The trial loop of `RobotSimulator.simulate`: run `trials` single runs of
`nSteps` steps each against the shared draw stream, collecting the final
positions in order. -/
def run_trials (maxPos : ℕ) (d : MoveDist) (pw pwin : ℚ) (u : ℕ → ℚ)
    (nSteps : ℕ) : ℕ → ℕ → Option (List ℕ × ℕ)
  | 0, idx => some ([], idx)
  | t + 1, idx =>
    match run_single maxPos d pw pwin u nSteps 0 idx with
    | none => none
    | some (fin, _, idx') =>
      match run_trials maxPos d pw pwin u nSteps t idx' with
      | none => none
      | some (fins, idx'') => some (fin :: fins, idx'')

/-- `RobotSimulator.simulate`: tally the final positions of `trials` runs and
divide each count by `trials`.  The division `counts[pos]/trials` raises
`ZeroDivisionError` in Python when `trials = 0`; that failure is embedded
as `none`. -/
def simulate (maxPos : ℕ) (d : MoveDist) (pw pwin : ℚ) (u : ℕ → ℚ)
    (nSteps trials : ℕ) : Option (ℕ → ℚ) :=
  match run_trials maxPos d pw pwin u nSteps trials 0 with
  | none => none
  | some (fins, _) =>
    if trials = 0 then none
    else some fun pos => (fins.count pos : ℚ) / (trials : ℚ)

/-- The inner loop of the transition-matrix construction in
`compute_exact_posterior`: `T[pos][min(pos+m, max_pos)] += pm` for each
item `(m, pm)`, starting from the row `row`. -/
def transition_row (maxPos p : ℕ) : List (ℕ × ℚ) → (ℕ → ℚ) → (ℕ → ℚ)
  | [], row => row
  | (m, pm) :: rest, row =>
    transition_row maxPos p rest
      (fun s => if s = min (p + m) maxPos then row s + pm else row s)

/-- Row `p` of the transition matrix `T` of `compute_exact_posterior`,
built from the all-zero row by accumulating the movement items. -/
def T (maxPos : ℕ) (items : List (ℕ × ℚ)) (p : ℕ) : ℕ → ℚ :=
  transition_row maxPos p items (fun _ => 0)

/-- One dynamic-programming step of `compute_exact_posterior`:
`new[s] = Σ_pos dist[pos] * T[pos][s]`, skipping positions with
`dist[pos] == 0.0` exactly as the code does. -/
def dp_step (maxPos : ℕ) (items : List (ℕ × ℚ)) (dist : ℕ → ℚ) : ℕ → ℚ :=
  fun s => ∑ p ∈ Finset.range (maxPos + 1),
    if dist p = 0 then 0 else dist p * T maxPos items p s

/-- `RobotSimulator.compute_exact_posterior`: iterate the DP step `nSteps`
times from the point mass at position 0. -/
def compute_exact_posterior (maxPos : ℕ) (d : MoveDist) (nSteps : ℕ) : ℕ → ℚ :=
  (dp_step maxPos d.items)^[nSteps] (fun p => if p = 0 then 1 else 0)

/-- `compute_exact_posterior` called with a possibly negative `n_steps`:
Python's `for _ in range(n_steps)` iterates `max(n_steps, 0)` times. -/
def compute_exact_posterior_int (maxPos : ℕ) (d : MoveDist) (steps : ℤ) :
    ℕ → ℚ :=
  compute_exact_posterior maxPos d steps.toNat

/-- `simulate` called with a possibly negative `n_steps`: inside each trial,
Python's `for step in range(n_steps)` iterates `max(n_steps, 0)` times. -/
def simulate_int (maxPos : ℕ) (d : MoveDist) (pw pwin : ℚ) (u : ℕ → ℚ)
    (steps : ℤ) (trials : ℕ) : Option (ℕ → ℚ) :=
  simulate maxPos d pw pwin u steps.toNat trials

/-- One entry of `movement_table.distribution_sets`. -/
structure CatalogEntry where
  movement : List (ℕ × ℚ)
  p_correct_wall : ℚ
  p_correct_window : ℚ

/-- `movement_table.distribution_sets`: the six permutations of the
probabilities (0.1, 0.7, 0.2) over the distances 0, 1, 2, all with
perfect sensing. -/
def distribution_sets : List CatalogEntry :=
  [⟨[(0, 7/10), (1, 1/5), (2, 1/10)], 1, 1⟩,
   ⟨[(0, 1/5), (1, 7/10), (2, 1/10)], 1, 1⟩,
   ⟨[(0, 1/5), (1, 1/10), (2, 7/10)], 1, 1⟩,
   ⟨[(0, 7/10), (1, 1/10), (2, 1/5)], 1, 1⟩,
   ⟨[(0, 1/10), (1, 1/5), (2, 7/10)], 1, 1⟩,
   ⟨[(0, 1/10), (1, 7/10), (2, 1/5)], 1, 1⟩]

/-- The default movement distribution `{0: 0.1, 1: 0.7, 2: 0.2}` of
`RobotSimulator.__init__`, used as a concrete instance. -/
def default_moves : MoveDist :=
  ⟨[0, 1, 2], fun k => if k = 0 then 1/10 else if k = 1 then 7/10 else 1/5⟩

/-- A constant draw stream, used as a concrete instance. -/
def u_half : ℕ → ℚ := fun _ => 1/2

lemma transition_row_apply (maxPos p : ℕ) (ms : List (ℕ × ℚ)) (row : ℕ → ℚ)
    (s : ℕ) :
    transition_row maxPos p ms row s =
      row s + (ms.map fun mp => if s = min (p + mp.1) maxPos then mp.2 else 0).sum := by
  induction ms generalizing row with
  | nil => simp [transition_row]
  | cons mp rest ih =>
    obtain ⟨m, pm⟩ := mp
    rw [transition_row, ih]
    by_cases h : s = min (p + m) maxPos <;> simp [h] <;> ring

lemma T_apply (maxPos : ℕ) (items : List (ℕ × ℚ)) (p s : ℕ) :
    T maxPos items p s =
      (items.map fun mp => if s = min (p + mp.1) maxPos then mp.2 else 0).sum := by
  simp [T, transition_row_apply]

lemma T_nonneg (maxPos : ℕ) (items : List (ℕ × ℚ))
    (hpos : ∀ mp ∈ items, 0 ≤ mp.2) (p s : ℕ) :
    0 ≤ T maxPos items p s := by
  rw [T_apply]
  apply List.sum_nonneg
  intro x hx
  simp only [List.mem_map] at hx
  obtain ⟨mp, hmp, rfl⟩ := hx
  by_cases h : s = min (p + mp.1) maxPos
  · simpa [h] using hpos mp hmp
  · simp [h]

lemma sum_range_transition_row (maxPos p n : ℕ) (ms : List (ℕ × ℚ))
    (row : ℕ → ℚ) (hn : maxPos < n) :
    ∑ s ∈ Finset.range n, transition_row maxPos p ms row s =
      (∑ s ∈ Finset.range n, row s) + (ms.map Prod.snd).sum := by
  induction ms generalizing row with
  | nil => simp [transition_row]
  | cons mp rest ih =>
    obtain ⟨m, pm⟩ := mp
    rw [transition_row, ih]
    have htar : min (p + m) maxPos ∈ Finset.range n := by
      simp only [Finset.mem_range]
      omega
    have hpoint : ∀ s : ℕ, (if s = min (p + m) maxPos then row s + pm else row s)
        = row s + (if s = min (p + m) maxPos then pm else 0) := by
      intro s
      by_cases h : s = min (p + m) maxPos <;> simp [h]
    simp only [hpoint, Finset.sum_add_distrib, Finset.sum_ite_eq' _ _ (fun _ => pm),
      htar, if_true, List.map_cons, List.sum_cons]
    ring

lemma sum_range_T (maxPos p : ℕ) (items : List (ℕ × ℚ)) :
    ∑ s ∈ Finset.range (maxPos + 1), T maxPos items p s =
      (items.map Prod.snd).sum := by
  simpa [T] using
    sum_range_transition_row maxPos p (maxPos + 1) items (fun _ => 0) (by omega)

lemma dp_step_apply (maxPos : ℕ) (items : List (ℕ × ℚ)) (dist : ℕ → ℚ)
    (s : ℕ) :
    dp_step maxPos items dist s =
      ∑ p ∈ Finset.range (maxPos + 1), dist p * T maxPos items p s := by
  unfold dp_step
  apply Finset.sum_congr rfl
  intro p _
  by_cases h : dist p = 0 <;> simp [h]

lemma dp_step_nonneg (maxPos : ℕ) (items : List (ℕ × ℚ)) (dist : ℕ → ℚ)
    (hpos : ∀ mp ∈ items, 0 ≤ mp.2) (hd : ∀ p, 0 ≤ dist p) (s : ℕ) :
    0 ≤ dp_step maxPos items dist s := by
  rw [dp_step_apply]
  apply Finset.sum_nonneg
  intro p _
  exact mul_nonneg (hd p) (T_nonneg maxPos items hpos p s)

lemma sum_range_dp_step (maxPos : ℕ) (items : List (ℕ × ℚ)) (dist : ℕ → ℚ) :
    ∑ s ∈ Finset.range (maxPos + 1), dp_step maxPos items dist s =
      (∑ p ∈ Finset.range (maxPos + 1), dist p) * (items.map Prod.snd).sum := by
  simp only [dp_step_apply]
  rw [Finset.sum_comm]
  simp only [← Finset.mul_sum, sum_range_T]
  rw [← Finset.sum_mul]

/-- C1: for `max_pos ≥ 1`, a movement distribution with non-negative
probabilities summing to 1, and any number of steps, the exact posterior has
non-negative entries and its entries over positions `0..max_pos` sum to 1
within 1e-9 (here: exactly, hence within the tolerance). -/
theorem exact_posterior_is_distribution (maxPos : ℕ) (d : MoveDist)
    (nSteps : ℕ) (hmax : 1 ≤ maxPos)
    (hpos : ∀ mp ∈ d.items, 0 ≤ mp.2)
    (hsum : (d.items.map Prod.snd).sum = 1) :
    (∀ s, 0 ≤ compute_exact_posterior maxPos d nSteps s) ∧
    |(∑ s ∈ Finset.range (maxPos + 1), compute_exact_posterior maxPos d nSteps s)
      - 1| ≤ 1/1000000000 := by
  have key : ∀ n : ℕ,
      (∀ s, 0 ≤ (dp_step maxPos d.items)^[n] (fun p => if p = 0 then 1 else 0) s) ∧
      (∑ s ∈ Finset.range (maxPos + 1),
        (dp_step maxPos d.items)^[n] (fun p => if p = 0 then 1 else 0) s) = 1 := by
    intro n
    induction n with
    | zero =>
      constructor
      · intro s
        simp only [Function.iterate_zero, id]
        by_cases h : s = 0 <;> simp [h]
      · have h0 : (0 : ℕ) ∈ Finset.range (maxPos + 1) := by
          simp
        simp [Finset.sum_ite_eq' _ _ (fun _ => (1 : ℚ)), h0]
    | succ n ih =>
      rw [Function.iterate_succ_apply']
      constructor
      · intro s
        exact dp_step_nonneg maxPos d.items _ hpos ih.1 s
      · rw [sum_range_dp_step, ih.2, hsum, one_mul]
  constructor
  · intro s
    simpa [compute_exact_posterior] using (key nSteps).1 s
  · have := (key nSteps).2
    simp only [compute_exact_posterior]
    rw [this]
    norm_num

/-- Witness for C1 at `max_pos = 3`, the default movement distribution and
2 steps. -/
theorem exact_posterior_is_distribution_witness :
    (1 ≤ 3) ∧ (∀ mp ∈ default_moves.items, 0 ≤ mp.2) ∧
    ((default_moves.items.map Prod.snd).sum = 1) ∧
    ((∀ s, 0 ≤ compute_exact_posterior 3 default_moves 2 s) ∧
     |(∑ s ∈ Finset.range (3 + 1), compute_exact_posterior 3 default_moves 2 s)
       - 1| ≤ 1/1000000000) :=
  ⟨by decide, by norm_num [default_moves, MoveDist.items],
    by norm_num [default_moves, MoveDist.items],
    exact_posterior_is_distribution 3 default_moves 2 (by decide)
      (by norm_num [default_moves, MoveDist.items])
      (by norm_num [default_moves, MoveDist.items])⟩

/-- C2: for every movement distribution, each transition-matrix entry
`T[p][s]` is the sum of `P(m)` over the step sizes `m` with
`min(p+m, max_pos) = s` (clamped masses accumulate additively); and
consequently, when the movement probabilities sum to 1, every row of `T`
over positions `0..max_pos` sums to 1. -/
theorem transition_matrix_spec (maxPos : ℕ) (d : MoveDist) (p s : ℕ)
    (hp : p ≤ maxPos) :
    T maxPos d.items p s =
      (d.items.map fun mp => if min (p + mp.1) maxPos = s then mp.2 else 0).sum ∧
    ((d.items.map Prod.snd).sum = 1 →
      ∑ t ∈ Finset.range (maxPos + 1), T maxPos d.items p t = 1) := by
  constructor
  · have hflip : ∀ mp : ℕ × ℚ,
        (if s = min (p + mp.1) maxPos then mp.2 else 0)
          = (if min (p + mp.1) maxPos = s then mp.2 else 0) := by
      intro mp
      by_cases h : s = min (p + mp.1) maxPos
      · rw [if_pos h, if_pos h.symm]
      · rw [if_neg h, if_neg (fun hh => h hh.symm)]
    simp only [T_apply, hflip]
  · intro hsum
    rw [sum_range_T, hsum]

/-- Witness for C2 at `max_pos = 3`, the default movement distribution,
source position 0 and destination 1. -/
theorem transition_matrix_spec_witness :
    ((0 : ℕ) ≤ 3) ∧
    (T 3 default_moves.items 0 1 =
      (default_moves.items.map fun mp =>
        if min (0 + mp.1) 3 = 1 then mp.2 else 0).sum ∧
     ((default_moves.items.map Prod.snd).sum = 1 →
       ∑ t ∈ Finset.range (3 + 1), T 3 default_moves.items 0 t = 1)) :=
  ⟨by decide, transition_matrix_spec 3 default_moves 0 1 (by decide)⟩

lemma cum_acc_length (val : ℕ → ℚ) (ms : List ℕ) (s : ℚ) :
    (cum_acc val ms s).length = ms.length := by
  induction ms generalizing s with
  | nil => rfl
  | cons m ms ih => simp [cum_acc, ih]

lemma sample_loop_some (ms : List ℕ) (cs : List ℚ) (u : ℚ) (m : ℕ)
    (h : sample_loop ms cs u = some m) :
    ∃ i, i < ms.length ∧ i < cs.length ∧ u ≤ cs.getD i 0 ∧
      (∀ j, j < i → cs.getD j 0 < u) ∧ m = ms.getD i 0 := by
  induction ms generalizing cs with
  | nil => simp [sample_loop] at h
  | cons a ms ih =>
    cases cs with
    | nil => simp [sample_loop] at h
    | cons c cs =>
      rw [sample_loop] at h
      by_cases hc : u ≤ c
      · rw [if_pos hc] at h
        refine ⟨0, by simp, by simp, by simpa using hc, by omega, ?_⟩
        simpa using (Option.some.inj h).symm
      · rw [if_neg hc] at h
        obtain ⟨i, h1, h2, h3, h4, h5⟩ := ih cs h
        refine ⟨i + 1, by simpa using h1, by simpa using h2, by simpa using h3,
          ?_, by simpa using h5⟩
        intro j hj
        cases j with
        | zero => simpa using lt_of_not_le hc
        | succ j => simpa using h4 j (by omega)

lemma sample_loop_none (ms : List ℕ) (cs : List ℚ) (u : ℚ)
    (h : sample_loop ms cs u = none) (hlen : cs.length ≤ ms.length) :
    ∀ c ∈ cs, c < u := by
  induction ms generalizing cs with
  | nil =>
    cases cs with
    | nil => simp
    | cons c cs => simp at hlen
  | cons a ms ih =>
    cases cs with
    | nil => simp
    | cons c cs =>
      rw [sample_loop] at h
      by_cases hc : u ≤ c
      · rw [if_pos hc] at h
        exact absurd h (by simp)
      · rw [if_neg hc] at h
        intro x hx
        rcases List.mem_cons.mp hx with rfl | hx
        · exact lt_of_not_le hc
        · exact ih cs h (by simpa using hlen) x hx

lemma sorted_getLast_max (l : List ℕ) (hs : List.Sorted (· ≤ ·) l) (m : ℕ)
    (h : l.getLast? = some m) : ∀ x ∈ l, x ≤ m := by
  induction l with
  | nil => simp at h
  | cons a l ih =>
    intro x hx
    have hm : m ∈ a :: l := List.mem_of_mem_getLast? (by simp [h])
    rcases List.mem_cons.mp hx with rfl | hx
    · rcases List.mem_cons.mp hm with rfl | hm
      · exact le_refl _
      · exact (List.sorted_cons.mp hs).1 m hm
    · cases l with
      | nil => simp at hx
      | cons b l =>
        rw [List.getLast?_cons_cons] at h
        exact ih (List.sorted_cons.mp hs).2 h x hx

/-- C4: for any non-empty movement distribution and any draw `u`, the step
sampler succeeds and returns a distance present in the distribution; the
result is the first distance, in ascending sorted order, whose cumulative
probability reaches `u`, and when no cumulative bucket reaches `u` it is the
largest distance. -/
theorem sample_move_spec (d : MoveDist) (u : ℚ) (hne : d.keys ≠ []) :
    ∃ m, sample_move d u = some m ∧ m ∈ d.keys ∧
      ((∃ i, i < (build_cdf d).1.length ∧ u ≤ (build_cdf d).2.getD i 0 ∧
          (∀ j, j < i → (build_cdf d).2.getD j 0 < u) ∧
          m = (build_cdf d).1.getD i 0) ∨
        ((∀ c ∈ (build_cdf d).2, c < u) ∧ ∀ k ∈ d.keys, k ≤ m)) := by
  have hperm : ((build_cdf d).1).Perm d.keys := List.perm_insertionSort _ _
  have hsorted : List.Sorted (· ≤ ·) (build_cdf d).1 :=
    List.sorted_insertionSort _ _
  have hlen : ((build_cdf d).2).length = ((build_cdf d).1).length :=
    cum_acc_length _ _ _
  cases hloop : sample_loop (build_cdf d).1 (build_cdf d).2 u with
  | some m =>
    obtain ⟨i, h1, h2, h3, h4, h5⟩ := sample_loop_some _ _ _ _ hloop
    refine ⟨m, ?_, ?_, Or.inl ⟨i, h1, h3, h4, h5⟩⟩
    · rw [sample_move, hloop]
    · refine hperm.mem_iff.mp ?_
      rw [h5, List.getD_eq_getElem _ _ h1]
      exact List.getElem_mem h1
  | none =>
    have hne' : (build_cdf d).1 ≠ [] := by
      intro hnil
      rw [hnil] at hperm
      exact hne hperm.symm.eq_nil
    obtain ⟨m, hm⟩ := Option.isSome_iff_exists.mp (List.getLast?_isSome.mpr hne')
    refine ⟨m, ?_, ?_, Or.inr ⟨?_, ?_⟩⟩
    · rw [sample_move, hloop, hm]
    · exact hperm.mem_iff.mp (List.mem_of_mem_getLast? (by simp [hm]))
    · exact sample_loop_none _ _ _ hloop (le_of_eq hlen)
    · intro k hk
      exact sorted_getLast_max _ hsorted m hm k (hperm.mem_iff.mpr hk)

/-- Witness for C4 at the default movement distribution and `u = 1/2`. -/
theorem sample_move_spec_witness :
    default_moves.keys ≠ [] ∧
    (∃ m, sample_move default_moves (1/2) = some m ∧ m ∈ default_moves.keys ∧
      ((∃ i, i < (build_cdf default_moves).1.length ∧
          (1/2 : ℚ) ≤ (build_cdf default_moves).2.getD i 0 ∧
          (∀ j, j < i → (build_cdf default_moves).2.getD j 0 < 1/2) ∧
          m = (build_cdf default_moves).1.getD i 0) ∨
        ((∀ c ∈ (build_cdf default_moves).2, c < 1/2) ∧
          ∀ k ∈ default_moves.keys, k ≤ m))) :=
  ⟨by decide, sample_move_spec default_moves (1/2) (by decide)⟩

lemma run_single_idx (maxPos : ℕ) (d : MoveDist) (pw pwin : ℚ) (u : ℕ → ℚ)
    (n : ℕ) : ∀ pos idx fin tr idx',
    run_single maxPos d pw pwin u n pos idx = some (fin, tr, idx') →
    idx' = idx + 2 * n := by
  induction n with
  | zero =>
    intro pos idx fin tr idx' h
    simp only [run_single, Option.some.injEq, Prod.mk.injEq] at h
    omega
  | succ n ih =>
    intro pos idx fin tr idx' h
    simp only [run_single] at h
    cases hsm : sample_move d (u idx) with
    | none => rw [hsm] at h; exact absurd h (by simp)
    | some m =>
      rw [hsm] at h
      simp only at h
      cases hr : run_single maxPos d pw pwin u n (min (pos + m) maxPos)
          (idx + 2) with
      | none => rw [hr] at h; exact absurd h (by simp)
      | some r =>
        obtain ⟨fin₀, tr₀, idx₀⟩ := r
        rw [hr] at h
        simp only [Option.some.injEq, Prod.mk.injEq] at h
        have := ih _ _ _ _ _ hr
        omega

lemma run_single_positions_agree (maxPos : ℕ) (d : MoveDist)
    (pw pwin pw' pwin' : ℚ) (u u' : ℕ → ℚ) (n : ℕ) : ∀ pos idx,
    (∀ k, k < n → u (idx + 2 * k) = u' (idx + 2 * k)) →
    ((run_single maxPos d pw pwin u n pos idx).map
      (fun r => (r.1, r.2.1.map Prod.fst, r.2.2))) =
    ((run_single maxPos d pw' pwin' u' n pos idx).map
      (fun r => (r.1, r.2.1.map Prod.fst, r.2.2))) := by
  induction n with
  | zero => intro pos idx _; rfl
  | succ n ih =>
    intro pos idx hagree
    have h0 : u' idx = u idx := by
      have := hagree 0 (by omega)
      simpa using this.symm
    simp only [run_single, h0]
    cases hsm : sample_move d (u idx) with
    | none => rfl
    | some m =>
      simp only
      have hrec := ih (min (pos + m) maxPos) (idx + 2) (fun k hk => by
        have := hagree (k + 1) (by omega)
        have harith : idx + 2 * (k + 1) = idx + 2 + 2 * k := by omega
        rwa [harith] at this)
      cases hu : run_single maxPos d pw pwin u n (min (pos + m) maxPos)
          (idx + 2) with
      | none =>
        cases hu' : run_single maxPos d pw' pwin' u' n (min (pos + m) maxPos)
            (idx + 2) with
        | none => rfl
        | some r' =>
          rw [hu, hu'] at hrec
          exact absurd hrec (by simp)
      | some r =>
        cases hu' : run_single maxPos d pw' pwin' u' n (min (pos + m) maxPos)
            (idx + 2) with
        | none =>
          rw [hu, hu'] at hrec
          exact absurd hrec (by simp)
        | some r' =>
          rw [hu, hu'] at hrec
          simp only [Option.map_some', Option.some.injEq, Prod.mk.injEq] at hrec
          simp only [Option.map_some', Option.some.injEq, Prod.mk.injEq,
            List.map_cons]
          exact ⟨hrec.1, ⟨by rw [hrec.2.1], hrec.2.2⟩⟩

/-- C5: `run_single` consumes exactly 2 draws per step (the final cursor is
the initial cursor plus `2 * n_steps`), and the returned final position,
the positions recorded in the trace, and the final cursor depend only on
the movement draws (the draws at even offsets `idx + 2k`): they are
unchanged under any change of the perception draws or of the sensor-model
probabilities. -/
theorem run_single_draw_discipline (maxPos : ℕ) (d : MoveDist)
    (pw pwin pw' pwin' : ℚ) (u u' : ℕ → ℚ) (n pos idx : ℕ)
    (hagree : ∀ k, k < n → u (idx + 2 * k) = u' (idx + 2 * k)) :
    (∀ fin tr idx', run_single maxPos d pw pwin u n pos idx =
        some (fin, tr, idx') → idx' = idx + 2 * n) ∧
    ((run_single maxPos d pw pwin u n pos idx).map
      (fun r => (r.1, r.2.1.map Prod.fst, r.2.2))) =
    ((run_single maxPos d pw' pwin' u' n pos idx).map
      (fun r => (r.1, r.2.1.map Prod.fst, r.2.2))) :=
  ⟨fun fin tr idx' h => run_single_idx maxPos d pw pwin u n pos idx fin tr idx' h,
    run_single_positions_agree maxPos d pw pwin pw' pwin' u u' n pos idx hagree⟩

/-- Witness for C5 with one step, equal draw streams and different sensor
models. -/
theorem run_single_draw_discipline_witness :
    (∀ k, k < 1 → u_half (0 + 2 * k) = u_half (0 + 2 * k)) ∧
    ((∀ fin tr idx', run_single 3 default_moves 1 1 u_half 1 0 0 =
        some (fin, tr, idx') → idx' = 0 + 2 * 1) ∧
    ((run_single 3 default_moves 1 1 u_half 1 0 0).map
      (fun r => (r.1, r.2.1.map Prod.fst, r.2.2))) =
    ((run_single 3 default_moves (1/2) (1/2) u_half 1 0 0).map
      (fun r => (r.1, r.2.1.map Prod.fst, r.2.2)))) :=
  ⟨fun _ _ => rfl,
    run_single_draw_discipline 3 default_moves 1 1 (1/2) (1/2) u_half u_half
      1 0 0 (fun _ _ => rfl)⟩

lemma run_single_monotone_bounded (maxPos : ℕ) (d : MoveDist) (pw pwin : ℚ)
    (u : ℕ → ℚ) (n : ℕ) : ∀ pos idx fin tr idx',
    pos ≤ maxPos →
    run_single maxPos d pw pwin u n pos idx = some (fin, tr, idx') →
    List.Chain' (· ≤ ·) (pos :: tr.map Prod.fst) ∧
    (∀ q ∈ tr.map Prod.fst, q ≤ maxPos) ∧ fin ≤ maxPos := by
  induction n with
  | zero =>
    intro pos idx fin tr idx' hpos h
    simp only [run_single, Option.some.injEq, Prod.mk.injEq] at h
    obtain ⟨rfl, rfl, -⟩ := h
    simp [hpos]
  | succ n ih =>
    intro pos idx fin tr idx' hpos h
    simp only [run_single] at h
    cases hsm : sample_move d (u idx) with
    | none => rw [hsm] at h; exact absurd h (by simp)
    | some m =>
      rw [hsm] at h
      simp only at h
      cases hr : run_single maxPos d pw pwin u n (min (pos + m) maxPos)
          (idx + 2) with
      | none => rw [hr] at h; exact absurd h (by simp)
      | some r =>
        obtain ⟨fin₀, tr₀, idx₀⟩ := r
        rw [hr] at h
        simp only [Option.some.injEq, Prod.mk.injEq] at h
        obtain ⟨rfl, rfl, -⟩ := h
        have htarget : min (pos + m) maxPos ≤ maxPos := min_le_right _ _
        have hmono : pos ≤ min (pos + m) maxPos :=
          le_min (Nat.le_add_right _ _) hpos
        obtain ⟨hchain, hbound, hfin⟩ := ih _ _ _ _ _ htarget hr
        refine ⟨?_, ?_, hfin⟩
        · simp only [List.map_cons, List.chain'_cons]
          exact ⟨hmono, by simpa using hchain⟩
        · intro q hq
          simp only [List.map_cons, List.mem_cons] at hq
          rcases hq with rfl | hq
          · exact htarget
          · exact hbound q hq

/-- C10: every trajectory of `run_single` started at position 0 is
monotonically non-decreasing, and every recorded position as well as the
returned final position lies in `[0, max_pos]`. -/
theorem run_single_trace_invariant (maxPos : ℕ) (d : MoveDist) (pw pwin : ℚ)
    (u : ℕ → ℚ) (n idx fin : ℕ) (tr : List (ℕ × Label × Label)) (idx' : ℕ)
    (h : run_single maxPos d pw pwin u n 0 idx = some (fin, tr, idx')) :
    List.Chain' (· ≤ ·) (0 :: tr.map Prod.fst) ∧
    (∀ q ∈ tr.map Prod.fst, q ≤ maxPos) ∧ fin ≤ maxPos :=
  run_single_monotone_bounded maxPos d pw pwin u n 0 idx fin tr idx'
    (Nat.zero_le _) h

/-- Witness for C10: a concrete one-step run of `run_single`. -/
theorem run_single_trace_invariant_witness :
    run_single 3 default_moves 1 1 u_half 1 0 0 =
      some (1, [(1, Label.wall, Label.wall)], 2) ∧
    (List.Chain' (· ≤ ·) (0 :: [(1, Label.wall, Label.wall)].map Prod.fst) ∧
     (∀ q ∈ [(1, Label.wall, Label.wall)].map Prod.fst, q ≤ 3) ∧ 1 ≤ 3) := by
  have hconc : run_single 3 default_moves 1 1 u_half 1 0 0 =
      some (1, [(1, Label.wall, Label.wall)], 2) := by
    norm_num [run_single, sample_move, build_cdf, cum_acc, sample_loop,
      List.insertionSort, List.orderedInsert, true_label_at, perceive_label,
      default_moves, u_half]
  exact ⟨hconc,
    run_single_trace_invariant 3 default_moves 1 1 u_half 1 0 1
      [(1, Label.wall, Label.wall)] 2 hconc⟩

lemma sample_move_isSome (d : MoveDist) (u : ℚ) (hne : d.keys ≠ []) :
    ∃ m, sample_move d u = some m := by
  unfold sample_move
  cases hloop : sample_loop (build_cdf d).1 (build_cdf d).2 u with
  | some m => exact ⟨m, rfl⟩
  | none =>
    have hne' : (build_cdf d).1 ≠ [] := by
      intro hnil
      have hperm := List.perm_insertionSort (· ≤ ·) d.keys
      have hnil' : d.keys.insertionSort (· ≤ ·) = [] := hnil
      rw [hnil'] at hperm
      exact hne hperm.symm.eq_nil
    exact Option.isSome_iff_exists.mp (List.getLast?_isSome.mpr hne')

lemma run_single_isSome (maxPos : ℕ) (d : MoveDist) (pw pwin : ℚ)
    (u : ℕ → ℚ) (hne : d.keys ≠ []) (n : ℕ) : ∀ pos idx,
    ∃ r, run_single maxPos d pw pwin u n pos idx = some r := by
  induction n with
  | zero => intro pos idx; exact ⟨_, rfl⟩
  | succ n ih =>
    intro pos idx
    obtain ⟨m, hm⟩ := sample_move_isSome d (u idx) hne
    obtain ⟨⟨fin, tr, idx'⟩, hr⟩ := ih (min (pos + m) maxPos) (idx + 2)
    refine ⟨(fin, (min (pos + m) maxPos, true_label_at (min (pos + m) maxPos),
      perceive_label pw pwin (true_label_at (min (pos + m) maxPos))
        (u (idx + 1))) :: tr, idx'), ?_⟩
    simp only [run_single, hm, hr]

lemma run_trials_ok (maxPos : ℕ) (d : MoveDist) (pw pwin : ℚ) (u : ℕ → ℚ)
    (nSteps : ℕ) (hne : d.keys ≠ []) : ∀ t idx,
    ∃ fins idx', run_trials maxPos d pw pwin u nSteps t idx =
        some (fins, idx') ∧
      fins.length = t ∧ ∀ x ∈ fins, x ≤ maxPos := by
  intro t
  induction t with
  | zero => intro idx; exact ⟨[], idx, rfl, rfl, by simp⟩
  | succ t ih =>
    intro idx
    obtain ⟨⟨fin, tr, idx'⟩, hr⟩ :=
      run_single_isSome maxPos d pw pwin u hne nSteps 0 idx
    have hfin : fin ≤ maxPos :=
      (run_single_monotone_bounded maxPos d pw pwin u nSteps 0 idx fin tr idx'
        (Nat.zero_le _) hr).2.2
    obtain ⟨fins, idx'', hrt, hlen, hbound⟩ := ih idx'
    refine ⟨fin :: fins, idx'', by simp only [run_trials, hr, hrt], by simp [hlen], ?_⟩
    intro x hx
    rcases List.mem_cons.mp hx with rfl | hx
    · exact hfin
    · exact hbound x hx

lemma sum_range_count (n : ℕ) (fins : List ℕ) (hb : ∀ x ∈ fins, x < n) :
    ∑ pos ∈ Finset.range n, (fins.count pos : ℚ) = fins.length := by
  induction fins with
  | nil => simp
  | cons a l ih =>
    have ha : a ∈ Finset.range n := by
      simpa [Finset.mem_range] using hb a (List.mem_cons_self a l)
    have hcnt : ∀ pos : ℕ, ((a :: l).count pos : ℚ) =
        (l.count pos : ℚ) + if pos = a then 1 else 0 := by
      intro pos
      rw [List.count_cons]
      by_cases h : pos = a
      · simp [h]
      · have h' : ¬(a = pos) := fun hh => h hh.symm
        simp [h, h']
    simp only [hcnt, Finset.sum_add_distrib]
    rw [ih (fun x hx => hb x (List.mem_cons_of_mem a hx)),
      Finset.sum_ite_eq' (Finset.range n) a (fun _ => (1 : ℚ)), if_pos ha]
    simp

/-- C3: for any nonempty movement distribution, any draw stream, any number
of steps and `trials ≥ 1`, `simulate` succeeds and returns probabilities
that are non-negative, sum to exactly 1 over positions `0..max_pos`, and
are each an integer count divided by the integer `trials`. -/
theorem simulate_probabilities (maxPos : ℕ) (d : MoveDist) (pw pwin : ℚ)
    (u : ℕ → ℚ) (nSteps trials : ℕ) (hne : d.keys ≠ []) (ht : 1 ≤ trials) :
    ∃ p, simulate maxPos d pw pwin u nSteps trials = some p ∧
      (∀ pos, 0 ≤ p pos) ∧
      (∑ pos ∈ Finset.range (maxPos + 1), p pos) = 1 ∧
      (∀ pos, ∃ c : ℕ, p pos = (c : ℚ) / (trials : ℚ)) := by
  obtain ⟨fins, idx', hrt, hlen, hbound⟩ :=
    run_trials_ok maxPos d pw pwin u nSteps hne trials 0
  have ht0 : trials ≠ 0 := by omega
  refine ⟨fun pos => (fins.count pos : ℚ) / (trials : ℚ), ?_, ?_, ?_, ?_⟩
  · simp only [simulate, hrt, if_neg ht0]
  · intro pos
    positivity
  · rw [← Finset.sum_div,
      sum_range_count (maxPos + 1) fins (fun x hx => by
        have := hbound x hx; omega),
      hlen]
    rw [div_self (by exact_mod_cast ht0)]
  · intro pos
    exact ⟨fins.count pos, rfl⟩

/-- Witness for C3 at `max_pos = 3`, the default distribution, 1 step and
2 trials. -/
theorem simulate_probabilities_witness :
    default_moves.keys ≠ [] ∧ 1 ≤ 2 ∧
    (∃ p, simulate 3 default_moves 1 1 u_half 1 2 = some p ∧
      (∀ pos, 0 ≤ p pos) ∧
      (∑ pos ∈ Finset.range (3 + 1), p pos) = 1 ∧
      (∀ pos, ∃ c : ℕ, p pos = (c : ℚ) / (2 : ℚ))) :=
  ⟨by decide, by decide,
    simulate_probabilities 3 default_moves 1 1 u_half 1 2 (by decide)
      (by decide)⟩

/-- C8: `simulate` with `trials = 0` fails (the Python division raises,
embedded as `none`), and with any `trials ≥ 1` (and a nonempty movement
distribution, as required by the MovementDistribution invariant) it
succeeds. -/
theorem simulate_trials_guard (maxPos : ℕ) (d : MoveDist) (pw pwin : ℚ)
    (u : ℕ → ℚ) (nSteps trials : ℕ) (hne : d.keys ≠ []) (ht : 1 ≤ trials) :
    simulate maxPos d pw pwin u nSteps 0 = none ∧
    ∃ p, simulate maxPos d pw pwin u nSteps trials = some p := by
  constructor
  · simp [simulate, run_trials]
  · obtain ⟨fins, idx', hrt, -, -⟩ :=
      run_trials_ok maxPos d pw pwin u nSteps hne trials 0
    exact ⟨fun pos => (fins.count pos : ℚ) / (trials : ℚ),
      by simp only [simulate, hrt, if_neg (by omega : trials ≠ 0)]⟩

/-- Witness for C8 at the default configuration with 3 trials. -/
theorem simulate_trials_guard_witness :
    default_moves.keys ≠ [] ∧ 1 ≤ 3 ∧
    (simulate 3 default_moves 1 1 u_half 2 0 = none ∧
     ∃ p, simulate 3 default_moves 1 1 u_half 2 3 = some p) :=
  ⟨by decide, by decide,
    simulate_trials_guard 3 default_moves 1 1 u_half 2 3 (by decide)
      (by decide)⟩

/-- The deterministic one-step position update `min(pos + dd, max_pos)`. -/
def det_step (maxPos dd : ℕ) (pos : ℕ) : ℕ :=
  min (pos + dd) maxPos

lemma sample_move_single (d : MoveDist) (dd : ℕ) (hk : d.keys = [dd])
    (u : ℚ) : sample_move d u = some dd := by
  unfold sample_move build_cdf
  rw [hk]
  simp only [List.insertionSort, List.orderedInsert, cum_acc, sample_loop,
    zero_add]
  by_cases h : u ≤ d.val dd
  · rw [if_pos h]
  · rw [if_neg h]
    rfl

lemma run_single_det (maxPos : ℕ) (d : MoveDist) (dd : ℕ)
    (hk : d.keys = [dd]) (pw pwin : ℚ) (u : ℕ → ℚ) (n : ℕ) : ∀ pos idx,
    ∃ tr, run_single maxPos d pw pwin u n pos idx =
      some ((det_step maxPos dd)^[n] pos, tr, idx + 2 * n) := by
  induction n with
  | zero => intro pos idx; exact ⟨[], by simp [run_single]⟩
  | succ n ih =>
    intro pos idx
    obtain ⟨tr, htr⟩ := ih (det_step maxPos dd pos) (idx + 2)
    have htr' : run_single maxPos d pw pwin u n (min (pos + dd) maxPos)
        (idx + 2) = some ((det_step maxPos dd)^[n] (det_step maxPos dd pos),
          tr, idx + 2 + 2 * n) := htr
    refine ⟨(min (pos + dd) maxPos, true_label_at (min (pos + dd) maxPos),
      perceive_label pw pwin (true_label_at (min (pos + dd) maxPos))
        (u (idx + 1))) :: tr, ?_⟩
    simp only [run_single, sample_move_single d dd hk (u idx), htr']
    rw [Function.iterate_succ_apply]
    have harith : idx + 2 + 2 * n = idx + 2 * (n + 1) := by omega
    rw [harith]

lemma run_trials_det (maxPos : ℕ) (d : MoveDist) (dd : ℕ)
    (hk : d.keys = [dd]) (pw pwin : ℚ) (u : ℕ → ℚ) (nSteps : ℕ) :
    ∀ t idx, ∃ idx', run_trials maxPos d pw pwin u nSteps t idx =
      some (List.replicate t ((det_step maxPos dd)^[nSteps] 0), idx') := by
  intro t
  induction t with
  | zero => intro idx; exact ⟨idx, rfl⟩
  | succ t ih =>
    intro idx
    obtain ⟨tr, htr⟩ := run_single_det maxPos d dd hk pw pwin u nSteps 0 idx
    obtain ⟨idx', hrt⟩ := ih (idx + 2 * nSteps)
    refine ⟨idx', ?_⟩
    simp only [run_trials, htr, hrt, List.replicate_succ]

lemma T_single (maxPos : ℕ) (d : MoveDist) (dd : ℕ) (hk : d.keys = [dd])
    (hv : d.val dd = 1) (p s : ℕ) :
    T maxPos d.items p s = if s = det_step maxPos dd p then 1 else 0 := by
  rw [T_apply, MoveDist.items, hk]
  simp [hv, det_step]

lemma exact_posterior_det (maxPos : ℕ) (d : MoveDist) (dd : ℕ)
    (hk : d.keys = [dd]) (hv : d.val dd = 1) (n : ℕ) (s : ℕ) :
    compute_exact_posterior maxPos d n s =
      if s = (det_step maxPos dd)^[n] 0 then 1 else 0 := by
  have key : ∀ n q, q ≤ maxPos → ∀ s,
      (dp_step maxPos d.items)^[n] (fun p => if p = q then 1 else 0) s =
        if s = (det_step maxPos dd)^[n] q then 1 else 0 := by
    intro n
    induction n with
    | zero => intro q hq s; rfl
    | succ n ih =>
      intro q hq s
      have hstep : (dp_step maxPos d.items fun p => if p = q then 1 else 0) =
          fun t => if t = det_step maxPos dd q then 1 else 0 := by
        funext t
        rw [dp_step_apply]
        have hterm : ∀ p, (if p = q then (1 : ℚ) else 0) * T maxPos d.items p t
            = if p = q then T maxPos d.items p t else 0 := by
          intro p
          by_cases h : p = q <;> simp [h]
        simp only [hterm]
        rw [Finset.sum_ite_eq' (Finset.range (maxPos + 1)) q
          (fun p => T maxPos d.items p t),
          if_pos (by simp only [Finset.mem_range]; omega), T_single maxPos d dd hk hv]
      rw [Function.iterate_succ_apply, hstep,
        ih (det_step maxPos dd q) (min_le_right _ _) s,
        Function.iterate_succ_apply]
  simpa [compute_exact_posterior] using key n 0 (Nat.zero_le _) s

/-- C6: for a deterministic movement distribution (a single distance with
probability 1), `simulate` succeeds for any `trials ≥ 1` and any draw
stream, and its output agrees with `compute_exact_posterior` within 1e-6
(here: exactly) at every position. -/
theorem monte_carlo_matches_exact_deterministic (maxPos : ℕ) (d : MoveDist)
    (dd : ℕ) (pw pwin : ℚ) (u : ℕ → ℚ) (nSteps trials : ℕ)
    (hk : d.keys = [dd]) (hv : d.val dd = 1) (ht : 1 ≤ trials) :
    ∃ p, simulate maxPos d pw pwin u nSteps trials = some p ∧
      ∀ pos, |p pos - compute_exact_posterior maxPos d nSteps pos| ≤
        1/1000000 := by
  obtain ⟨idx', hrt⟩ := run_trials_det maxPos d dd hk pw pwin u nSteps trials 0
  have ht0 : trials ≠ 0 := by omega
  refine ⟨fun pos =>
      ((List.replicate trials ((det_step maxPos dd)^[nSteps] 0)).count pos : ℚ)
        / (trials : ℚ), ?_, ?_⟩
  · simp only [simulate, hrt, if_neg ht0]
  intro pos
  dsimp only
  rw [exact_posterior_det maxPos d dd hk hv nSteps pos]
  rw [List.count_replicate]
  have htQ : (trials : ℚ) ≠ 0 := by exact_mod_cast ht0
  have heq : ((if ((det_step maxPos dd)^[nSteps] 0 == pos) = true then trials
        else 0 : ℕ) : ℚ) / (trials : ℚ)
      = if pos = (det_step maxPos dd)^[nSteps] 0 then 1 else 0 := by
    by_cases h : pos = (det_step maxPos dd)^[nSteps] 0
    · have hc : ((det_step maxPos dd)^[nSteps] 0 == pos) = true := by
        simp [h]
      rw [if_pos hc, if_pos h, div_self htQ]
    · have hc : ¬((det_step maxPos dd)^[nSteps] 0 == pos) = true := by
        simp only [beq_iff_eq]
        exact fun hh => h hh.symm
      rw [if_neg hc, if_neg h]
      simp
  rw [heq, sub_self, abs_zero]
  norm_num

/-- Witness for C6: the distribution `{1: 1.0}`, 2 steps, 2 trials. -/
theorem monte_carlo_matches_exact_deterministic_witness :
    (MoveDist.keys ⟨[1], fun _ => 1⟩ = [1]) ∧
    (MoveDist.val ⟨[1], fun _ => 1⟩ 1 = 1) ∧ 1 ≤ 2 ∧
    (∃ p, simulate 3 ⟨[1], fun _ => 1⟩ 1 1 u_half 2 2 = some p ∧
      ∀ pos, |p pos - compute_exact_posterior 3 ⟨[1], fun _ => 1⟩ 2 pos| ≤
        1/1000000) :=
  ⟨rfl, rfl, by decide,
    monte_carlo_matches_exact_deterministic 3 ⟨[1], fun _ => 1⟩ 1 1 1 u_half
      2 2 rfl rfl (by decide)⟩

/-- C7 counterexample: at `steps = -1` neither operation fails with an
InvalidArgument condition — Python's `range` of a negative number just runs
zero iterations — `simulate` returns a value and `compute_exact_posterior`
returns the point mass at position 0. -/
theorem negative_steps_counterexample :
    simulate_int 3 default_moves 1 1 u_half (-1) 1 ≠ none ∧
    compute_exact_posterior_int 3 default_moves (-1) 0 = 1 ∧
    compute_exact_posterior_int 3 default_moves (-1) 1 = 0 := by
  refine ⟨?_, rfl, rfl⟩
  simp [simulate_int, simulate, run_trials, run_single]

/-- C7 (amended): for every `steps ≤ 0`, both operations return the initial
point-mass distribution at position 0 rather than failing: the exact
posterior equals the point mass, and `simulate` (for `trials ≥ 1`) succeeds
and returns the point mass. -/
theorem nonpositive_steps_point_mass (maxPos : ℕ) (d : MoveDist)
    (pw pwin : ℚ) (u : ℕ → ℚ) (steps : ℤ) (trials : ℕ)
    (hs : steps ≤ 0) (ht : 1 ≤ trials) :
    (∀ pos, compute_exact_posterior_int maxPos d steps pos =
      if pos = 0 then 1 else 0) ∧
    (∃ p, simulate_int maxPos d pw pwin u steps trials = some p ∧
      ∀ pos, p pos = if pos = 0 then 1 else 0) := by
  have h0 : steps.toNat = 0 := by omega
  constructor
  · intro pos
    simp only [compute_exact_posterior_int, h0]
    rfl
  · have hrt : ∀ t idx, run_trials maxPos d pw pwin u 0 t idx =
        some (List.replicate t 0, idx) := by
      intro t
      induction t with
      | zero => intro idx; rfl
      | succ t ih =>
        intro idx
        simp only [run_trials, run_single, ih, List.replicate_succ]
    have ht0 : trials ≠ 0 := by omega
    simp only [simulate_int, h0]
    refine ⟨fun pos => ((List.replicate trials 0).count pos : ℚ) / (trials : ℚ),
      ?_, ?_⟩
    · simp only [simulate, hrt trials 0, if_neg ht0]
    · intro pos
      dsimp only
      rw [List.count_replicate]
      by_cases h : pos = 0
      · have hc : ((0 : ℕ) == pos) = true := by simp [h]
        rw [if_pos hc, if_pos h, div_self (by exact_mod_cast ht0)]
      · have hc : ¬((0 : ℕ) == pos) = true := by
          simp only [beq_iff_eq]
          exact fun hh => h hh.symm
        rw [if_neg hc, if_neg h]
        simp

/-- Witness for the amended C7 at `steps = -2`, one trial. -/
theorem nonpositive_steps_point_mass_witness :
    ((-2 : ℤ) ≤ 0) ∧ (1 ≤ 1) ∧
    ((∀ pos, compute_exact_posterior_int 3 default_moves (-2) pos =
        if pos = 0 then 1 else 0) ∧
     (∃ p, simulate_int 3 default_moves 1 1 u_half (-2) 1 = some p ∧
        ∀ pos, p pos = if pos = 0 then 1 else 0)) :=
  ⟨by decide, by decide,
    nonpositive_steps_point_mass 3 default_moves 1 1 u_half (-2) 1 (by decide)
      (by decide)⟩

/-- C9: the Distribution Catalog has exactly 6 entries; every entry's
movement probabilities are over distances {0,1,2} and sum to 1 within 1e-9,
and both correctness probabilities lie in [0,1] and equal 1.0. -/
theorem catalog_schema :
    distribution_sets.length = 6 ∧
    ∀ e ∈ distribution_sets,
      (∀ mp ∈ e.movement, mp.1 ∈ ([0, 1, 2] : List ℕ)) ∧
      |(e.movement.map Prod.snd).sum - 1| ≤ 1/1000000000 ∧
      0 ≤ e.p_correct_wall ∧ e.p_correct_wall ≤ 1 ∧
      0 ≤ e.p_correct_window ∧ e.p_correct_window ≤ 1 ∧
      e.p_correct_wall = 1 ∧ e.p_correct_window = 1 := by
  constructor
  · rfl
  · intro e he
    fin_cases he <;>
      exact ⟨by decide, by norm_num [distribution_sets], by norm_num [distribution_sets],
        by norm_num [distribution_sets], by norm_num [distribution_sets],
        by norm_num [distribution_sets], rfl, rfl⟩
